import Mathlib

/-!
Verification of the archive codec in `github_to_binary.py`.

Shallow embedding of the pure core of the repository: the byte/digit-string
codec (`format(byte, '08b')` and `int(group, 2)`), the record framing written
by `encode_repo_to_binary`, and the stream parsing performed by
`decode_binary_to_files`.  Strings are modelled as `List Char`, byte values as
`Nat` (a Python `bytes` element is in `0..255`), and the filesystem effect of
the extractor as the ordered list of `(path, bytes)` writes it performs.
-/

namespace GithubToBinary

/-- Characters stripped by Python `str.strip()` (ASCII whitespace; the inputs
of this program are ASCII). -/
def isWs (c : Char) : Bool :=
  c == ' ' || c == '\t' || c == '\n' || c == '\r' || c == '\x0b' || c == '\x0c'

/-- Python `s.strip()`: drop whitespace from both ends. -/
def stripWs (s : List Char) : List Char :=
  ((s.dropWhile isWs).reverse.dropWhile isWs).reverse

/-- Value of one binary digit character, `none` for anything else. -/
def binDigitVal (c : Char) : Option Nat :=
  if c = '0' then some 0 else if c = '1' then some 1 else none

/-- Digit part of a Python base-2 integer literal after the first digit:
digits `0`/`1`, with single underscores allowed between digits. -/
def binDigitsAux : Nat → List Char → Option Nat
  | acc, [] => some acc
  | acc, c :: rest =>
    if c = '_' then
      match rest with
      | [] => none
      | d :: rest2 =>
        match binDigitVal d with
        | some v => binDigitsAux (2 * acc + v) rest2
        | none => none
    else
      match binDigitVal c with
      | some v => binDigitsAux (2 * acc + v) rest
      | none => none

/-- Digit part of a Python base-2 integer literal: must start with a digit. -/
def binDigits : List Char → Option Nat
  | [] => none
  | c :: rest =>
    if c = '_' then none
    else
      match binDigitVal c with
      | some v => binDigitsAux v rest
      | none => none

/-- Optional sign of a Python integer literal. -/
def pySign : List Char → Int × List Char
  | [] => (1, [])
  | c :: rest =>
    if c = '+' then (1, rest)
    else if c = '-' then (-1, rest)
    else (1, c :: rest)

/-- One optional underscore directly after a `0b` prefix. -/
def pyStripUnd : List Char → List Char
  | [] => []
  | c :: rest => if c = '_' then rest else c :: rest

/-- Optional `0b`/`0B` prefix accepted by Python `int(s, 2)`. -/
def pyStrip0b : List Char → List Char
  | c1 :: c2 :: rest =>
    if c1 = '0' ∧ (c2 = 'b' ∨ c2 = 'B') then pyStripUnd rest else c1 :: c2 :: rest
  | s => s

/-- Model of Python `int(s, 2)` on a string: surrounding whitespace, an
optional sign, an optional `0b` prefix, then binary digits with single
underscores between digits; `none` models `ValueError`. -/
def pyIntBase2 (s : List Char) : Option Int :=
  match pySign (stripWs s) with
  | (sgn, t) =>
    match binDigits (pyStrip0b t) with
    | some n => some (sgn * (n : Int))
    | none => none

/-- The slices `binary_data[i:i+8] for i in range(0, len(binary_data), 8)`:
consecutive groups of 8 characters, the last group possibly shorter. -/
def chunks8 : List Char → List (List Char)
  | [] => []
  | c1 :: c2 :: c3 :: c4 :: c5 :: c6 :: c7 :: c8 :: rest =>
    [c1, c2, c3, c4, c5, c6, c7, c8] :: chunks8 rest
  | c :: rest => [c :: rest]

/-- One byte of the decoder: `int(group, 2)` followed by the range check the
`bytes(...)` constructor performs (each value must be in `0..255`). -/
def parseByte (g : List Char) : Option Nat :=
  match pyIntBase2 g with
  | some v => if 0 ≤ v ∧ v < 256 then some v.toNat else none
  | none => none

/-- All-or-nothing traversal: any failure raises the exception that makes the
extractor skip the whole record. -/
def mapOpt (f : α → Option β) : List α → Option (List β)
  | [] => some []
  | a :: l =>
    match f a with
    | some b =>
      match mapOpt f l with
      | some bs => some (b :: bs)
      | none => none
    | none => none

/-- `bytes(int(binary_data[i:i+8], 2) for i in range(0, len(binary_data), 8))`
from `decode_binary_to_files`. -/
def decodeDigits (s : List Char) : Option (List Nat) :=
  mapOpt parseByte (chunks8 s)

/-- Binary digits of `n`, most significant first (fuel-driven division loop;
`natToBin` supplies enough fuel). -/
def natToBinAux : Nat → Nat → List Char → List Char
  | 0, _, acc => acc
  | _ + 1, 0, acc => acc
  | fuel + 1, n + 1, acc =>
    natToBinAux fuel ((n + 1) / 2) ((if (n + 1) % 2 = 1 then '1' else '0') :: acc)

/-- Python `format(n, 'b')`: binary digits, most significant first, `"0"` for
zero. -/
def natToBin (n : Nat) : List Char :=
  if n = 0 then ['0'] else natToBinAux n n []

/-- Python `format(byte, '08b')`: binary digits left-padded with `'0'` to
width 8. -/
def encodeByte (b : Nat) : List Char :=
  List.replicate (8 - (natToBin b).length) '0' ++ natToBin b

/-- `''.join(format(byte, '08b') for byte in data)` from
`encode_repo_to_binary`. -/
def encodeBytes (bs : List Nat) : List Char :=
  (bs.map encodeByte).flatten

/-- Base-2 value of a digit string read most-significant-bit first (the
specification-side reading used to state MSB-first correctness). -/
def bv (s : List Char) : Nat :=
  s.foldl (fun a c => 2 * a + (if c = '1' then 1 else 0)) 0

/-- Body of one framed record, after the leading `"--- "` marker:
`{rel_path} ---\n{binary_data}\n\n` from the f-string in
`encode_repo_to_binary`. -/
def recordBody (p : List Char) (c : List Nat) : List Char :=
  p ++ (' ' :: '-' :: '-' :: '-' :: '\n' :: []) ++ encodeBytes c ++ ('\n' :: '\n' :: [])

/-- One framed record: `--- {rel_path} ---\n{binary_data}\n\n`. -/
def record (e : List Char × List Nat) : List Char :=
  '-' :: '-' :: '-' :: ' ' :: recordBody e.1 e.2

/-- The serialization loop of `encode_repo_to_binary`: for each entry, in
iteration order, append its framed record to the output stream. -/
def serialize (es : List (List Char × List Nat)) : List Char :=
  es.foldl (fun out e => out ++ record e) []

/-- `r :: ps` pushed onto the head chunk: helper for the splitting scans. -/
def consTo (c : Char) : List (List Char) → List (List Char)
  | [] => [[c]]
  | p :: ps => (c :: p) :: ps

/-- Python `content.split('--- ')`: split on the leftmost occurrences of the
four-character marker, scanning left to right. -/
def splitMarker : List Char → List (List Char)
  | [] => [[]]
  | c1 :: c2 :: c3 :: c4 :: rest =>
    if c1 = '-' ∧ c2 = '-' ∧ c3 = '-' ∧ c4 = ' ' then [] :: splitMarker rest
    else consTo c1 (splitMarker (c2 :: c3 :: c4 :: rest))
  | c :: rest => consTo c (splitMarker rest)

/-- Whether `"--- "` occurs anywhere in the string. -/
def containsMarker : List Char → Bool
  | c1 :: c2 :: c3 :: c4 :: rest =>
    (c1 == '-' && c2 == '-' && c3 == '-' && c4 == ' ') || containsMarker (c2 :: c3 :: c4 :: rest)
  | _ => false

/-- Python `part.split('\n', 1)`: text before the first newline, and the rest
if a newline exists (`header, *binary_lines = part.split('\n', 1)`). -/
def splitNl1 : List Char → List Char × Option (List Char)
  | [] => ([], none)
  | c :: rest =>
    if c = '\n' then ([], some rest)
    else (c :: (splitNl1 rest).1, (splitNl1 rest).2)

/-- Python `header.replace(' ---', '')`: delete every occurrence of the
four-character sequence, scanning left to right. -/
def removeMarkerEnd : List Char → List Char
  | c1 :: c2 :: c3 :: c4 :: rest =>
    if c1 = ' ' ∧ c2 = '-' ∧ c3 = '-' ∧ c4 = '-' then removeMarkerEnd rest
    else c1 :: removeMarkerEnd (c2 :: c3 :: c4 :: rest)
  | s => s

/-- Processing of one fragment of `decode_binary_to_files`: split at the first
newline (skip the fragment if there is none), derive the file path with
`replace(' ---', '').strip()`, strip the body, decode it, and on success
return the `(path, bytes)` write; any decode exception skips the record. -/
def decodePart (part : List Char) : Option (List Char × List Nat) :=
  match (splitNl1 part).2 with
  | none => none
  | some rest =>
    match decodeDigits (stripWs rest) with
    | some bs => some (stripWs (removeMarkerEnd (splitNl1 part).1), bs)
    | none => none

/-- The whole parse of `decode_binary_to_files`: split the stream on
`'--- '`, drop the fragment before the first marker, and collect the file
writes of the fragments that decode successfully, in order. -/
def decodeStream (content : List Char) : List (List Char × List Nat) :=
  ((splitMarker content).tail).filterMap decodePart

/-- Destination root directory of the extractor (`decoded_folder`). -/
def destRoot : List Char := ['d', 'e', 'c', 'o', 'd', 'e', 'd', '_', 'r', 'e', 'p', 'o']

/-- Split a path into `'/'`-separated segments. -/
def splitSlash : List Char → List (List Char)
  | [] => [[]]
  | c :: rest => if c = '/' then [] :: splitSlash rest else consTo c (splitSlash rest)

/-- POSIX resolution of the segments of a relative path against the current
directory: `.` and empty segments vanish, `..` pops the previous segment and
is kept when there is nothing left to pop. -/
def resolveSegs : List (List Char) → List (List Char) → List (List Char)
  | stack, [] => stack.reverse
  | stack, seg :: rest =>
    if seg = [] ∨ seg = ['.'] then resolveSegs stack rest
    else if seg = ['.', '.'] then
      match stack with
      | [] => resolveSegs [seg] rest
      | top :: s2 =>
        if top = ['.', '.'] then resolveSegs (seg :: stack) rest else resolveSegs s2 rest
    else resolveSegs (seg :: stack) rest

/-- Whether the file the extractor opens for a decoded path lies outside the
destination root: `os.path.join(decoded_folder, filepath)` discards the root
for an absolute path, and otherwise the joined path is resolved by the
filesystem; the write escapes when the resolved path does not stay below
`decoded_repo`. -/
def escapesRoot (filepath : List Char) : Bool :=
  match filepath with
  | '/' :: _ => true
  | _ =>
    match resolveSegs [] (splitSlash (destRoot ++ '/' :: filepath)) with
    | [] => true
    | seg :: _ => !(seg == destRoot)

/-- Well-formedness of an entry fed to the archiver, as needed for its record
to survive the framing: the path contains no newline, is unchanged by
`strip()` and by `replace(' ---', '')` up to its own footer, its record body
does not contain the `'--- '` marker, and its content bytes are byte values. -/
def goodEntry (e : List Char × List Nat) : Bool :=
  decide ('\n' ∉ e.1) &&
  decide (stripWs e.1 = e.1) &&
  decide (removeMarkerEnd (e.1 ++ (' ' :: '-' :: '-' :: '-' :: [])) = e.1) &&
  !(containsMarker (recordBody e.1 e.2)) &&
  decide (∀ b ∈ e.2, b < 256)

/-- A stream of record bodies, each preceded by the `'--- '` marker. -/
def bodiesChain (bs : List (List Char)) : List Char :=
  (bs.map (fun b => '-' :: '-' :: '-' :: ' ' :: b)).flatten

/-! ### Lemmas about the digit value function `bv` -/

theorem bv_snoc (a : Nat) (s : List Char) (c : Char) :
    List.foldl (fun a c => 2 * a + (if c = '1' then 1 else 0)) a (s ++ [c]) =
      2 * List.foldl (fun a c => 2 * a + (if c = '1' then 1 else 0)) a s +
        (if c = '1' then 1 else 0) := by
  simp [List.foldl_append]

theorem bv_foldl_lt (s : List Char) :
    ∀ a : Nat, List.foldl (fun a c => 2 * a + (if c = '1' then 1 else 0)) a s <
      (a + 1) * 2 ^ s.length := by
  induction s with
  | nil => intro a; simp
  | cons c rest ih =>
    intro a
    have h1 := ih (2 * a + (if c = '1' then 1 else 0))
    have h2 : (2 * a + (if c = '1' then 1 else 0) + 1) * 2 ^ rest.length ≤
        (a + 1) * 2 ^ (rest.length + 1) := by
      have hd : (if c = '1' then 1 else 0) ≤ 1 := by split <;> omega
      have : 2 * a + (if c = '1' then 1 else 0) + 1 ≤ 2 * (a + 1) := by omega
      calc (2 * a + (if c = '1' then 1 else 0) + 1) * 2 ^ rest.length
          ≤ 2 * (a + 1) * 2 ^ rest.length := Nat.mul_le_mul_right _ this
        _ = (a + 1) * 2 ^ (rest.length + 1) := by ring
    simpa [List.foldl_cons] using lt_of_lt_of_le h1 h2

theorem bv_lt (s : List Char) : bv s < 2 ^ s.length := by
  simpa [bv] using bv_foldl_lt s 0

theorem bv_zero_pad (k : Nat) (s : List Char) :
    bv (List.replicate k '0' ++ s) = bv s := by
  have hz : ∀ m : Nat,
      List.foldl (fun a c => 2 * a + (if c = '1' then 1 else 0)) 0
        (List.replicate m '0') = 0 := by
    intro m
    induction m with
    | zero => simp
    | succ m ih => simpa [List.replicate_succ] using ih
  simp [bv, List.foldl_append, hz]

/-! ### Lemmas about `natToBin` and `encodeByte` -/

theorem natToBinAux_shift :
    ∀ fuel n acc, natToBinAux fuel n acc = natToBinAux fuel n [] ++ acc := by
  intro fuel
  induction fuel with
  | zero => intro n acc; simp [natToBinAux]
  | succ fuel ih =>
    intro n acc
    cases n with
    | zero => simp [natToBinAux]
    | succ m =>
      rw [natToBinAux, natToBinAux, ih _ ((if (m + 1) % 2 = 1 then '1' else '0') :: acc),
        ih _ [(if (m + 1) % 2 = 1 then '1' else '0')], List.append_assoc]
      simp

theorem natToBinAux_val :
    ∀ fuel n, n ≤ fuel → bv (natToBinAux fuel n []) = n := by
  intro fuel
  induction fuel with
  | zero => intro n hn; interval_cases n; simp [natToBinAux, bv]
  | succ fuel ih =>
    intro n hn
    cases n with
    | zero => simp [natToBinAux, bv]
    | succ m =>
      rw [natToBinAux, natToBinAux_shift]
      have hle : (m + 1) / 2 ≤ fuel := by omega
      have hv := ih ((m + 1) / 2) hle
      unfold bv at hv ⊢
      rw [bv_snoc, hv]
      have := Nat.div_add_mod (m + 1) 2
      rcases Nat.mod_two_eq_zero_or_one (m + 1) with h2 | h2 <;> simp [h2] <;> omega

theorem natToBinAux_len :
    ∀ fuel n k, n ≤ fuel → n < 2 ^ k → (natToBinAux fuel n []).length ≤ k := by
  intro fuel
  induction fuel with
  | zero => intro n k hn _; interval_cases n; simp [natToBinAux]
  | succ fuel ih =>
    intro n k hn hk
    cases n with
    | zero => simp [natToBinAux]
    | succ m =>
      rw [natToBinAux, natToBinAux_shift]
      cases k with
      | zero => simp at hk
      | succ k2 =>
        have hle : (m + 1) / 2 ≤ fuel := by omega
        have hpow : 2 ^ (k2 + 1) = 2 * 2 ^ k2 := by ring
        have hlt : (m + 1) / 2 < 2 ^ k2 := by omega
        have := ih ((m + 1) / 2) k2 hle hlt
        simp only [List.length_append, List.length_cons, List.length_nil]
        omega

theorem natToBinAux_bin :
    ∀ fuel n acc, (∀ c ∈ acc, c = '0' ∨ c = '1') →
      ∀ c ∈ natToBinAux fuel n acc, c = '0' ∨ c = '1' := by
  intro fuel
  induction fuel with
  | zero => intro n acc hacc; simpa [natToBinAux] using hacc
  | succ fuel ih =>
    intro n acc hacc
    cases n with
    | zero => simpa [natToBinAux] using hacc
    | succ m =>
      rw [natToBinAux]
      refine ih _ _ ?_
      intro c hc
      rcases List.mem_cons.mp hc with h | h
      · subst h; split <;> simp
      · exact hacc c h

theorem natToBin_val (n : Nat) : bv (natToBin n) = n := by
  unfold natToBin
  split
  · simp [bv]; omega
  · exact natToBinAux_val n n le_rfl

theorem natToBin_len {n k : Nat} (hk : 1 ≤ k) (h : n < 2 ^ k) :
    (natToBin n).length ≤ k := by
  unfold natToBin
  split
  · simpa using hk
  · exact natToBinAux_len n n k le_rfl h

theorem natToBin_bin (n : Nat) : ∀ c ∈ natToBin n, c = '0' ∨ c = '1' := by
  unfold natToBin
  split
  · simp
  · exact natToBinAux_bin n n [] (by simp)

theorem encodeByte_length {b : Nat} (hb : b < 256) : (encodeByte b).length = 8 := by
  have h8 : (natToBin b).length ≤ 8 := natToBin_len (by omega) (by norm_num; omega)
  simp [encodeByte]
  omega

theorem encodeByte_val (b : Nat) : bv (encodeByte b) = b := by
  rw [encodeByte, bv_zero_pad, natToBin_val]

theorem encodeByte_bin (b : Nat) : ∀ c ∈ encodeByte b, c = '0' ∨ c = '1' := by
  intro c hc
  rcases List.mem_append.mp hc with h | h
  · left; exact List.eq_of_mem_replicate h
  · exact natToBin_bin b c h

theorem encodeBytes_nil : encodeBytes [] = [] := rfl

theorem encodeBytes_cons (b : Nat) (bs : List Nat) :
    encodeBytes (b :: bs) = encodeByte b ++ encodeBytes bs := by
  simp [encodeBytes]

theorem encodeBytes_bin (bs : List Nat) :
    ∀ c ∈ encodeBytes bs, c = '0' ∨ c = '1' := by
  intro c hc
  simp only [encodeBytes, List.mem_flatten, List.mem_map] at hc
  obtain ⟨l, ⟨b, _, rfl⟩, hcl⟩ := hc
  exact encodeByte_bin b c hcl

/-! ### `int(s, 2)` and `strip()` on pure binary strings -/

theorem dropWhile_all_false {p : Char → Bool} {l : List Char}
    (h : ∀ c ∈ l, p c = false) : l.dropWhile p = l := by
  cases l with
  | nil => rfl
  | cons c rest => simp [List.dropWhile_cons, h c (by simp)]

theorem isWs_of_bin {c : Char} (h : c = '0' ∨ c = '1') : isWs c = false := by
  rcases h with h | h <;> subst h <;> decide

theorem stripWs_bin {s : List Char} (h : ∀ c ∈ s, c = '0' ∨ c = '1') :
    stripWs s = s := by
  unfold stripWs
  rw [dropWhile_all_false (fun c hc => isWs_of_bin (h c hc))]
  rw [dropWhile_all_false (fun c hc => isWs_of_bin (h c (List.mem_reverse.mp hc)))]
  exact List.reverse_reverse s

theorem stripWs_digits {E : List Char} (h : ∀ c ∈ E, c = '0' ∨ c = '1') :
    stripWs (E ++ ['\n', '\n']) = E := by
  cases E with
  | nil => decide
  | cons c rest =>
    have hc : isWs c = false := isWs_of_bin (h c (by simp))
    have h1 : List.dropWhile isWs ((c :: rest) ++ ['\n', '\n']) =
        (c :: rest) ++ ['\n', '\n'] := by
      rw [List.cons_append, List.dropWhile_cons]
      simp [hc]
    have h2 : ((c :: rest) ++ ['\n', '\n']).reverse =
        '\n' :: '\n' :: (c :: rest).reverse := by simp
    have h3 : List.dropWhile isWs ('\n' :: '\n' :: (c :: rest).reverse) =
        List.dropWhile isWs (c :: rest).reverse := by
      rw [List.dropWhile_cons, if_pos (by decide), List.dropWhile_cons, if_pos (by decide)]
    unfold stripWs
    rw [h1, h2, h3]
    rw [dropWhile_all_false (fun d hd =>
      isWs_of_bin (h d (by simpa using List.mem_reverse.mp hd)))]
    exact List.reverse_reverse _

theorem binDigitsAux_bin :
    ∀ (s : List Char) (acc : Nat), (∀ c ∈ s, c = '0' ∨ c = '1') →
      binDigitsAux acc s =
        some (List.foldl (fun a c => 2 * a + (if c = '1' then 1 else 0)) acc s) := by
  intro s
  induction s with
  | nil => intro acc _; simp [binDigitsAux]
  | cons c rest ih =>
    intro acc h
    have hc := h c (by simp)
    have hrest : ∀ c ∈ rest, c = '0' ∨ c = '1' := fun d hd => h d (by simp [hd])
    rcases hc with hc | hc <;> subst hc <;>
      · rw [binDigitsAux.eq_def]
        simp [binDigitVal, ih _ hrest]

theorem binDigits_bin {s : List Char} (hne : s ≠ [])
    (h : ∀ c ∈ s, c = '0' ∨ c = '1') : binDigits s = some (bv s) := by
  cases s with
  | nil => exact absurd rfl hne
  | cons c rest =>
    have hc := h c (by simp)
    have hrest : ∀ c ∈ rest, c = '0' ∨ c = '1' := fun d hd => h d (by simp [hd])
    rcases hc with hc | hc <;> subst hc <;>
      simp [binDigits, binDigitVal, binDigitsAux_bin rest _ hrest, bv]

theorem pySign_bin {s : List Char} (hne : s ≠ [])
    (h : ∀ c ∈ s, c = '0' ∨ c = '1') : pySign s = (1, s) := by
  cases s with
  | nil => exact absurd rfl hne
  | cons c rest =>
    rcases h c (by simp) with hc | hc <;> subst hc <;> simp [pySign]

theorem pyStrip0b_bin {s : List Char} (h : ∀ c ∈ s, c = '0' ∨ c = '1') :
    pyStrip0b s = s := by
  match s with
  | [] => rfl
  | [c] => rfl
  | c1 :: c2 :: rest =>
    rcases h c2 (by simp) with hc | hc <;> subst hc <;> simp [pyStrip0b]

theorem pyIntBase2_bin {s : List Char} (hne : s ≠ [])
    (h : ∀ c ∈ s, c = '0' ∨ c = '1') : pyIntBase2 s = some ((bv s : Int)) := by
  unfold pyIntBase2
  rw [stripWs_bin h, pySign_bin hne h]
  simp only
  rw [pyStrip0b_bin h, binDigits_bin hne h]
  simp

theorem parseByte_bin {g : List Char} (hne : g ≠ [])
    (hb : ∀ c ∈ g, c = '0' ∨ c = '1') (hlen : g.length ≤ 8) :
    parseByte g = some (bv g) := by
  have hlt : bv g < 256 := by
    have h1 := bv_lt g
    have h2 : (2 : Nat) ^ g.length ≤ 2 ^ 8 := Nat.pow_le_pow_right (by omega) hlen
    norm_num at h2
    omega
  rw [parseByte, pyIntBase2_bin hne hb]
  simp only
  rw [if_pos (by constructor <;> [exact Int.ofNat_nonneg _; exact_mod_cast hlt])]
  simp

/-! ### Chunking and the codec round trip -/

theorem chunks8_append8 {x : List Char} (y : List Char) (hx : x.length = 8) :
    chunks8 (x ++ y) = x :: chunks8 y := by
  match x, hx with
  | [c1, c2, c3, c4, c5, c6, c7, c8], _ => rfl

theorem chunks8_encodeBytes {bs : List Nat} (h : ∀ b ∈ bs, b < 256) :
    chunks8 (encodeBytes bs) = bs.map encodeByte := by
  induction bs with
  | nil => rfl
  | cons b rest ih =>
    rw [encodeBytes_cons, chunks8_append8 _ (encodeByte_length (h b (by simp)))]
    rw [ih (fun b hb => h b (by simp [hb]))]
    rfl

theorem decodeDigits_encodeBytes {bs : List Nat} (h : ∀ b ∈ bs, b < 256) :
    decodeDigits (encodeBytes bs) = some bs := by
  rw [decodeDigits, chunks8_encodeBytes h]
  induction bs with
  | nil => rfl
  | cons b rest ih =>
    have hb := h b (by simp)
    have hp : parseByte (encodeByte b) = some b := by
      rw [parseByte_bin (by
          intro hnil
          have := encodeByte_length hb
          rw [hnil] at this
          simp at this)
        (encodeByte_bin b) (le_of_eq (encodeByte_length hb))]
      rw [encodeByte_val]
    rw [List.map_cons, mapOpt, hp, ih (fun d hd => h d (by simp [hd]))]

/-! ### Splitting lemmas for the record framing -/

theorem splitNl1_no_nl {s : List Char} (h : '\n' ∉ s) : splitNl1 s = (s, none) := by
  induction s with
  | nil => rfl
  | cons c rest ih =>
    have hc : c ≠ '\n' := fun he => h (by simp [he])
    have hr : '\n' ∉ rest := fun hm => h (by simp [hm])
    simp only [splitNl1, if_neg hc, ih hr]

theorem splitNl1_append {a : List Char} (b : List Char) (h : '\n' ∉ a) :
    splitNl1 (a ++ '\n' :: b) = (a, some b) := by
  induction a with
  | nil => simp [splitNl1]
  | cons c a2 ih =>
    have hc : c ≠ '\n' := fun he => h (by simp [he])
    have ha2 : '\n' ∉ a2 := fun hm => h (by simp [hm])
    simp only [List.cons_append, splitNl1, if_neg hc, List.append_eq, ih ha2]

theorem containsMarker_tail {c : Char} {t : List Char}
    (h : containsMarker (c :: t) = false) : containsMarker t = false := by
  match t with
  | [] => rfl
  | [d] => rfl
  | [d, e] => rfl
  | d :: e :: f :: t3 =>
    simp only [containsMarker, Bool.or_eq_false_iff] at h
    exact h.2

theorem splitMarker_marker (X : List Char) :
    splitMarker ('-' :: '-' :: '-' :: ' ' :: X) = [] :: splitMarker X := by
  simp [splitMarker]

theorem splitMarker_free :
    ∀ (a : List Char), containsMarker a = false → splitMarker a = [a]
  | [], _ => rfl
  | [c], _ => rfl
  | [c, d], _ => rfl
  | [c, d, e], _ => rfl
  | c :: d :: e :: f :: t, h => by
    have h1 : ¬(c = '-' ∧ d = '-' ∧ e = '-' ∧ f = ' ') := by
      rintro ⟨rfl, rfl, rfl, rfl⟩
      simp [containsMarker] at h
    have ht := containsMarker_tail h
    rw [splitMarker, if_neg h1, splitMarker_free _ ht]
    rfl

theorem splitMarker_free_append :
    ∀ (a X : List Char), containsMarker a = false →
      splitMarker (a ++ '-' :: '-' :: '-' :: ' ' :: X) = a :: splitMarker X
  | [], X, _ => by simpa using splitMarker_marker X
  | [c], X, _ => by
    simp only [List.cons_append, List.nil_append]
    rw [splitMarker, if_neg (by simp), splitMarker_marker]
    rfl
  | [c, d], X, _ => by
    simp only [List.cons_append, List.nil_append]
    rw [splitMarker, if_neg (by simp)]
    rw [splitMarker, if_neg (by simp), splitMarker_marker]
    rfl
  | [c, d, e], X, _ => by
    simp only [List.cons_append, List.nil_append]
    rw [splitMarker, if_neg (by simp)]
    rw [splitMarker, if_neg (by simp)]
    rw [splitMarker, if_neg (by simp), splitMarker_marker]
    rfl
  | c :: d :: e :: f :: t, X, h => by
    have h1 : ¬(c = '-' ∧ d = '-' ∧ e = '-' ∧ f = ' ') := by
      rintro ⟨rfl, rfl, rfl, rfl⟩
      simp [containsMarker] at h
    have ht := containsMarker_tail h
    simp only [List.cons_append]
    rw [splitMarker, if_neg h1]
    have h2 : d :: e :: f :: (t ++ '-' :: '-' :: '-' :: ' ' :: X) =
        (d :: e :: f :: t) ++ '-' :: '-' :: '-' :: ' ' :: X := by simp
    rw [h2, splitMarker_free_append _ X ht]
    rfl

/-! ### Parsing a chain of well-formed record bodies -/

theorem bodiesChain_cons (b : List Char) (bs : List (List Char)) :
    bodiesChain (b :: bs) = '-' :: '-' :: '-' :: ' ' :: (b ++ bodiesChain bs) := by
  simp [bodiesChain]

theorem splitMarker_chain_aux :
    ∀ (bs : List (List Char)) (a : List Char), containsMarker a = false →
      (∀ b ∈ bs, containsMarker b = false) →
      splitMarker (a ++ bodiesChain bs) = a :: bs := by
  intro bs
  induction bs with
  | nil =>
    intro a ha _
    simpa [bodiesChain] using splitMarker_free a ha
  | cons b bs2 ih =>
    intro a ha hbs
    rw [bodiesChain_cons, splitMarker_free_append a _ ha,
      ih b (hbs b (by simp)) (fun d hd => hbs d (by simp [hd]))]

theorem decodeStream_chain {bs : List (List Char)}
    (h : ∀ b ∈ bs, containsMarker b = false) :
    decodeStream (bodiesChain bs) = bs.filterMap decodePart := by
  unfold decodeStream
  have := splitMarker_chain_aux bs [] rfl h
  simp only [List.nil_append] at this
  rw [this]
  rfl

theorem goodEntry_unpack {e : List Char × List Nat} (h : goodEntry e = true) :
    '\n' ∉ e.1 ∧ stripWs e.1 = e.1 ∧
      removeMarkerEnd (e.1 ++ (' ' :: '-' :: '-' :: '-' :: [])) = e.1 ∧
      containsMarker (recordBody e.1 e.2) = false ∧ ∀ b ∈ e.2, b < 256 := by
  simp only [goodEntry, Bool.and_eq_true, decide_eq_true_eq, Bool.not_eq_true'] at h
  tauto

theorem decodePart_recordBody {p : List Char} {c : List Nat}
    (h : goodEntry (p, c) = true) : decodePart (recordBody p c) = some (p, c) := by
  obtain ⟨hnl, hst, hrm, _, hb⟩ := goodEntry_unpack h
  have hnl2 : '\n' ∉ p ++ (' ' :: '-' :: '-' :: '-' :: []) := by
    intro hmem
    rcases List.mem_append.mp hmem with h1 | h1
    · exact hnl h1
    · simp at h1
  have hshape : recordBody p c =
      (p ++ (' ' :: '-' :: '-' :: '-' :: [])) ++
        '\n' :: (encodeBytes c ++ ('\n' :: '\n' :: [])) := by
    simp [recordBody]
  have hsp : splitNl1 (recordBody p c) =
      (p ++ (' ' :: '-' :: '-' :: '-' :: []),
        some (encodeBytes c ++ ('\n' :: '\n' :: []))) := by
    rw [hshape]
    exact splitNl1_append _ hnl2
  unfold decodePart
  rw [hsp]
  simp only
  have hstrip : stripWs (encodeBytes c ++ ('\n' :: '\n' :: [])) = encodeBytes c :=
    stripWs_digits (encodeBytes_bin c)
  rw [hstrip, decodeDigits_encodeBytes hb]
  simp only
  rw [hrm, hst]

theorem filterMap_decodePart_bodies {es : List (List Char × List Nat)}
    (h : ∀ e ∈ es, goodEntry e = true) :
    (es.map (fun e => recordBody e.1 e.2)).filterMap decodePart = es := by
  induction es with
  | nil => rfl
  | cons e rest ih =>
    rw [List.map_cons, List.filterMap_cons, decodePart_recordBody (h e (by simp))]
    rw [ih (fun d hd => h d (by simp [hd]))]

theorem serialize_eq_flatten (es : List (List Char × List Nat)) :
    serialize es = (es.map record).flatten := by
  have aux : ∀ (l : List (List Char × List Nat)) (out : List Char),
      List.foldl (fun out e => out ++ record e) out l = out ++ (l.map record).flatten := by
    intro l
    induction l with
    | nil => intro out; simp
    | cons e rest ih =>
      intro out
      simp only [List.foldl_cons, List.map_cons, List.flatten_cons, ih, List.append_assoc]
  simpa [serialize] using aux es []

theorem serialize_eq_bodiesChain (es : List (List Char × List Nat)) :
    serialize es = bodiesChain (es.map (fun e => recordBody e.1 e.2)) := by
  rw [serialize_eq_flatten]
  unfold bodiesChain
  rw [List.map_map]
  rfl

theorem chain_marker_free {es : List (List Char × List Nat)}
    (h : ∀ e ∈ es, goodEntry e = true) :
    ∀ b ∈ es.map (fun e => recordBody e.1 e.2), containsMarker b = false := by
  intro b hb
  obtain ⟨e, he, rfl⟩ := List.mem_map.mp hb
  exact (goodEntry_unpack (h e he)).2.2.2.1

theorem decodeStream_serialize {es : List (List Char × List Nat)}
    (h : ∀ e ∈ es, goodEntry e = true) :
    decodeStream (serialize es) = es := by
  rw [serialize_eq_bodiesChain, decodeStream_chain (chain_marker_free h),
    filterMap_decodePart_bodies h]

/-! ### Chunk structure of arbitrary binary digit strings -/

theorem chunks8_length : ∀ (s : List Char), (chunks8 s).length = (s.length + 7) / 8
  | [] => rfl
  | [c1] => by simp [chunks8]
  | [c1, c2] => by simp [chunks8]
  | [c1, c2, c3] => by simp [chunks8]
  | [c1, c2, c3, c4] => by simp [chunks8]
  | [c1, c2, c3, c4, c5] => by simp [chunks8]
  | [c1, c2, c3, c4, c5, c6] => by simp [chunks8]
  | [c1, c2, c3, c4, c5, c6, c7] => by simp [chunks8]
  | c1 :: c2 :: c3 :: c4 :: c5 :: c6 :: c7 :: c8 :: rest => by
    simp only [chunks8, List.length_cons, chunks8_length rest]
    omega

theorem chunks8_props :
    ∀ (s : List Char), ∀ t ∈ chunks8 s, t ≠ [] ∧ t.length ≤ 8 ∧ ∀ c ∈ t, c ∈ s
  | [] => by simp [chunks8]
  | [c1] => by
    intro t ht
    simp only [chunks8, List.mem_singleton] at ht
    subst ht
    exact ⟨by simp, by simp, by simp⟩
  | [c1, c2] => by
    intro t ht
    simp only [chunks8, List.mem_singleton] at ht
    subst ht
    exact ⟨by simp, by simp, by simp⟩
  | [c1, c2, c3] => by
    intro t ht
    simp only [chunks8, List.mem_singleton] at ht
    subst ht
    exact ⟨by simp, by simp, by simp⟩
  | [c1, c2, c3, c4] => by
    intro t ht
    simp only [chunks8, List.mem_singleton] at ht
    subst ht
    exact ⟨by simp, by simp, by simp⟩
  | [c1, c2, c3, c4, c5] => by
    intro t ht
    simp only [chunks8, List.mem_singleton] at ht
    subst ht
    exact ⟨by simp, by simp, by simp⟩
  | [c1, c2, c3, c4, c5, c6] => by
    intro t ht
    simp only [chunks8, List.mem_singleton] at ht
    subst ht
    exact ⟨by simp, by simp, by simp⟩
  | [c1, c2, c3, c4, c5, c6, c7] => by
    intro t ht
    simp only [chunks8, List.mem_singleton] at ht
    subst ht
    exact ⟨by simp, by simp, by simp⟩
  | c1 :: c2 :: c3 :: c4 :: c5 :: c6 :: c7 :: c8 :: rest => by
    intro t ht
    simp only [chunks8, List.mem_cons] at ht
    rcases ht with rfl | ht
    · exact ⟨by simp, by simp, by intro c hc; simp at hc ⊢; tauto⟩
    · obtain ⟨h1, h2, h3⟩ := chunks8_props rest t ht
      exact ⟨h1, h2, fun c hc => by simp [h3 c hc]⟩

theorem mapOpt_parseByte_chunks :
    ∀ (cs : List (List Char)),
      (∀ t ∈ cs, t ≠ [] ∧ t.length ≤ 8 ∧ ∀ c ∈ t, c = '0' ∨ c = '1') →
      mapOpt parseByte cs = some (cs.map bv) := by
  intro cs
  induction cs with
  | nil => intro _; rfl
  | cons t rest ih =>
    intro h
    obtain ⟨h1, h2, h3⟩ := h t (by simp)
    rw [List.map_cons, mapOpt, parseByte_bin h1 h3 h2,
      ih (fun u hu => h u (by simp [hu]))]

theorem decodeDigits_bin {s : List Char} (h : ∀ c ∈ s, c = '0' ∨ c = '1') :
    decodeDigits s = some ((chunks8 s).map bv) :=
  mapOpt_parseByte_chunks _ (fun t ht =>
    ⟨(chunks8_props s t ht).1, (chunks8_props s t ht).2.1,
      fun c hc => h c ((chunks8_props s t ht).2.2 c hc)⟩)

theorem chunks8_getLast :
    ∀ (s : List Char), s.length % 8 ≠ 0 →
      (chunks8 s).getLast? = some (s.drop (8 * (s.length / 8)))
  | [], h => by simp at h
  | [c1], _ => by simp [chunks8]
  | [c1, c2], _ => by simp [chunks8]
  | [c1, c2, c3], _ => by simp [chunks8]
  | [c1, c2, c3, c4], _ => by simp [chunks8]
  | [c1, c2, c3, c4, c5], _ => by simp [chunks8]
  | [c1, c2, c3, c4, c5, c6], _ => by simp [chunks8]
  | [c1, c2, c3, c4, c5, c6, c7], _ => by simp [chunks8]
  | c1 :: c2 :: c3 :: c4 :: c5 :: c6 :: c7 :: c8 :: rest, h => by
    have hr : rest.length % 8 ≠ 0 := by
      simp only [List.length_cons] at h
      omega
    have hcne : chunks8 rest ≠ [] := by
      intro he
      have := chunks8_length rest
      rw [he] at this
      simp at this
      omega
    have hrec := chunks8_getLast rest hr
    simp only [chunks8]
    have harith : 8 * ((c1 :: c2 :: c3 :: c4 :: c5 :: c6 :: c7 :: c8 :: rest).length / 8) =
        8 + 8 * (rest.length / 8) := by
      simp only [List.length_cons]
      omega
    rw [harith]
    rcases hq : chunks8 rest with _ | ⟨q, qs⟩
    · exact absurd hq hcne
    · rw [List.getLast?_cons_cons, ← hq, hrec]
      congr 1
      rw [← List.drop_drop]
      rfl

/-! ### The claims -/

/-- C1: decoding the digit string produced by encoding any byte sequence
(each element a byte value, including the empty sequence) returns exactly the
original bytes: the per-byte 8-bit encoding of `encode_repo_to_binary` and the
8-character-group conversion of `decode_binary_to_files` are mutually
inverse. -/
theorem claim1_decode_encode_roundtrip (bs : List Nat) (h : ∀ b ∈ bs, b < 256) :
    decodeDigits (encodeBytes bs) = some bs :=
  decodeDigits_encodeBytes h

theorem claim1_decode_encode_roundtrip_witness :
    (∀ b ∈ ([72, 105, 0, 255] : List Nat), b < 256) ∧
      decodeDigits (encodeBytes [72, 105, 0, 255]) = some [72, 105, 0, 255] :=
  ⟨by decide, claim1_decode_encode_roundtrip [72, 105, 0, 255] (by decide)⟩

/-- C2: the claim that the extractor rejects records whose path is absolute or
escapes the destination root fails on the code: `decode_binary_to_files`
performs no path validation, so a record with path `../evil` is written to a
location that resolves outside `decoded_repo`, and a record with the absolute
path `/tmp/evil` makes `os.path.join` discard the destination root
entirely. -/
theorem claim2_path_escape_write :
    decodeStream ("--- ../evil ---\n01000001\n\n".toList) =
        [("../evil".toList, [65])] ∧
      escapesRoot ("../evil".toList) = true ∧
      decodeStream ("--- /tmp/evil ---\n01000001\n\n".toList) =
        [("/tmp/evil".toList, [65])] ∧
      escapesRoot ("/tmp/evil".toList) = true := by
  decide

/-- C3: `encodeBytes` maps each byte, in input order, to its 8-character
binary representation (always length 8, characters `0`/`1` only, leading
zeros preserved, most significant bit first, so reading the 8 characters back
as a base-2 numeral recovers the byte), concatenated with no separators; the
empty sequence encodes to the empty string, and `0x48 0x69` encodes to
`"0100100001101001"`. -/
theorem claim3_encodeBytes_spec (b : Nat) (hb : b < 256) :
    encodeBytes [] = [] ∧
      (∀ x xs, encodeBytes (x :: xs) = encodeByte x ++ encodeBytes xs) ∧
      (encodeByte b).length = 8 ∧
      (∀ c ∈ encodeByte b, c = '0' ∨ c = '1') ∧
      bv (encodeByte b) = b ∧
      encodeBytes [72, 105] = "0100100001101001".toList :=
  ⟨rfl, encodeBytes_cons, encodeByte_length hb, encodeByte_bin b,
    encodeByte_val b, by decide⟩

theorem claim3_encodeBytes_spec_witness :
    (72 < 256) ∧
      (encodeBytes [] = [] ∧
        (∀ x xs, encodeBytes (x :: xs) = encodeByte x ++ encodeBytes xs) ∧
        (encodeByte 72).length = 8 ∧
        (∀ c ∈ encodeByte 72, c = '0' ∨ c = '1') ∧
        bv (encodeByte 72) = 72 ∧
        encodeBytes [72, 105] = "0100100001101001".toList) :=
  ⟨by decide, claim3_encodeBytes_spec 72 (by decide)⟩

/-- C4: the serializer emits, per entry in iteration order, exactly the record
`"--- " ++ path ++ " ---" ++ "\n" ++ encodeBytes content ++ "\n" ++ "\n"`,
records concatenated with nothing between them; the empty archive produces the
empty stream (no header, footer, count, or checksum), and the spec's concrete
scenario record is reproduced verbatim. -/
theorem claim4_serialize_stream_shape (es : List (List Char × List Nat)) :
    serialize es =
        (es.map (fun e =>
          ('-' :: '-' :: '-' :: ' ' :: []) ++ e.1 ++ (' ' :: '-' :: '-' :: '-' :: []) ++
            ('\n' :: []) ++ encodeBytes e.2 ++ ('\n' :: []) ++ ('\n' :: []))).flatten ∧
      serialize [] = [] ∧
      serialize [("a.txt".toList, [72, 105])] =
        "--- a.txt ---\n0100100001101001\n\n".toList := by
  refine ⟨?_, rfl, by decide⟩
  rw [serialize_eq_flatten]
  have hfun : record = (fun (e : List Char × List Nat) =>
      ('-' :: '-' :: '-' :: ' ' :: []) ++ e.1 ++ (' ' :: '-' :: '-' :: '-' :: []) ++
        ('\n' :: []) ++ encodeBytes e.2 ++ ('\n' :: []) ++ ('\n' :: [])) := by
    funext e
    simp [record, recordBody]
  rw [hfun]

/-- C5: the claim that the decoder fails on every digit string whose length is
not a multiple of 8 and on every string with a character outside `{0, 1}`
fails on the code: the trailing short group `"0000"` is decoded to the single
byte 0 rather than rejected, and the group `"+1010101"` is accepted by
Python's `int(_, 2)` and decoded to 85. -/
theorem claim5_short_group_decoded :
    decodeDigits ('0' :: '0' :: '0' :: '0' :: []) = some [0] ∧
      decodeDigits ('+' :: '1' :: '0' :: '1' :: '0' :: '1' :: '0' :: '1' :: []) =
        some [85] := by
  decide

/-- C6: the claim that a record whose header does not end with `" ---"` is
reported and skipped fails on the code: `decode_binary_to_files` derives the
path with `replace(' ---', '').strip()` and never checks for the suffix, so
the record `"--- a.txt\n01000001\n\n"`, whose header `"a.txt"` lacks the
suffix, still produces a write of file `a.txt` with content `0x41`. -/
theorem claim6_missing_suffix_still_written :
    decodeStream ("--- a.txt\n01000001\n\n".toList) = [("a.txt".toList, [65])] ∧
      List.isSuffixOf (" ---".toList) ("a.txt".toList) = false := by
  decide

/-- C7: a record that fails to decode (for example because its digit string
contains non-binary characters) does not abort the parse: for any streams of
well-formed records around it, every well-formed record is reconstructed
byte-identically and in order, the bad record contributing only its own
(possibly empty) write. -/
theorem claim7_corrupt_record_isolated (pre post : List (List Char × List Nat))
    (bad : List Char)
    (hpre : ∀ e ∈ pre, goodEntry e = true) (hpost : ∀ e ∈ post, goodEntry e = true)
    (hbad : containsMarker bad = false) :
    decodeStream (serialize pre ++ ('-' :: '-' :: '-' :: ' ' :: bad) ++ serialize post) =
      pre ++ (decodePart bad).toList ++ post := by
  have hstream :
      serialize pre ++ ('-' :: '-' :: '-' :: ' ' :: bad) ++ serialize post =
        bodiesChain ((pre.map (fun e => recordBody e.1 e.2)) ++
          bad :: (post.map (fun e => recordBody e.1 e.2))) := by
    rw [serialize_eq_bodiesChain pre, serialize_eq_bodiesChain post]
    simp [bodiesChain, List.flatten_append, List.append_assoc]
  rw [hstream, decodeStream_chain ?hfree]
  case hfree =>
    intro b hb
    rcases List.mem_append.mp hb with h1 | h1
    · exact chain_marker_free hpre b h1
    · rcases List.mem_cons.mp h1 with rfl | h2
      · exact hbad
      · exact chain_marker_free hpost b h2
  rw [List.filterMap_append, List.filterMap_cons, filterMap_decodePart_bodies hpre,
    filterMap_decodePart_bodies hpost]
  cases hd : decodePart bad <;> simp

theorem claim7_corrupt_record_isolated_witness :
    (∀ e ∈ [("a.txt".toList, ([72, 105] : List Nat))], goodEntry e = true) ∧
      (∀ e ∈ [("b.bin".toList, ([0, 255] : List Nat))], goodEntry e = true) ∧
      containsMarker ("c.txt ---\n01a10101\n\n".toList) = false ∧
      decodeStream (serialize [("a.txt".toList, [72, 105])] ++
          ('-' :: '-' :: '-' :: ' ' :: ("c.txt ---\n01a10101\n\n".toList)) ++
          serialize [("b.bin".toList, [0, 255])]) =
        [("a.txt".toList, [72, 105])] ++
          (decodePart ("c.txt ---\n01a10101\n\n".toList)).toList ++
          [("b.bin".toList, [0, 255])] :=
  ⟨by decide, by decide, by decide,
    claim7_corrupt_record_isolated _ _ _ (by decide) (by decide) (by decide)⟩

/-- C8 counterexample: the claim that a record whose body trims to the empty
string is skipped with no file created fails on the code: the stream
`"--- a.txt ---\n\n\n"` contains exactly such a record, and the extractor
creates the file `a.txt` (with zero-length content) for it. -/
theorem claim8_empty_body_creates_file :
    decodeStream ("--- a.txt ---\n\n\n".toList) =
      [("a.txt".toList, ([] : List Nat))] := by
  decide

/-- C8 amended: a record fragment with no newline at all (no body portion) is
skipped and contributes no write, while a record whose body trims to the
empty string is not skipped: it produces a zero-length file at its path. -/
theorem claim8_no_newline_skipped (part p w : List Char)
    (h1 : '\n' ∉ part) (hp1 : '\n' ∉ p) (hp2 : stripWs p = p)
    (hp3 : removeMarkerEnd (p ++ (' ' :: '-' :: '-' :: '-' :: [])) = p)
    (hw : stripWs w = []) :
    decodePart part = none ∧
      decodePart (p ++ (' ' :: '-' :: '-' :: '-' :: '\n' :: w)) =
        some (p, ([] : List Nat)) := by
  constructor
  · unfold decodePart
    rw [splitNl1_no_nl h1]
  · have hnl2 : '\n' ∉ p ++ (' ' :: '-' :: '-' :: '-' :: []) := by
      intro hmem
      rcases List.mem_append.mp hmem with hx | hx
      · exact hp1 hx
      · simp at hx
    have hshape : p ++ (' ' :: '-' :: '-' :: '-' :: '\n' :: w) =
        (p ++ (' ' :: '-' :: '-' :: '-' :: [])) ++ '\n' :: w := by simp
    unfold decodePart
    rw [hshape, splitNl1_append _ hnl2]
    simp only
    rw [hw]
    simp only [decodeDigits, chunks8, mapOpt]
    rw [hp3, hp2]

theorem claim8_no_newline_skipped_witness :
    ('\n' ∉ ("a.txt 01000001".toList)) ∧ ('\n' ∉ ("a.txt".toList)) ∧
      stripWs ("a.txt".toList) = "a.txt".toList ∧
      removeMarkerEnd ("a.txt".toList ++ (' ' :: '-' :: '-' :: '-' :: [])) =
        "a.txt".toList ∧
      stripWs ('\n' :: '\n' :: []) = [] ∧
      (decodePart ("a.txt 01000001".toList) = none ∧
        decodePart ("a.txt".toList ++ (' ' :: '-' :: '-' :: '-' :: '\n' :: '\n' :: '\n' :: [])) =
          some ("a.txt".toList, ([] : List Nat))) :=
  ⟨by decide, by decide, by decide, by decide, by decide,
    claim8_no_newline_skipped _ _ _ (by decide) (by decide) (by decide) (by decide)
      (by decide)⟩

/-- C9: an entry with zero-length content serializes to an empty digit string,
and parsing a stream of well-formed records containing it recreates the
zero-length file at the entry's path. -/
theorem claim9_empty_content_roundtrip (es : List (List Char × List Nat))
    (p : List Char) (h : ∀ e ∈ es, goodEntry e = true)
    (hmem : (p, ([] : List Nat)) ∈ es) :
    encodeBytes [] = [] ∧ (p, ([] : List Nat)) ∈ decodeStream (serialize es) :=
  ⟨rfl, by rw [decodeStream_serialize h]; exact hmem⟩

theorem claim9_empty_content_roundtrip_witness :
    (∀ e ∈ [("a.txt".toList, ([72] : List Nat)), ("empty.bin".toList, [])],
        goodEntry e = true) ∧
      ("empty.bin".toList, ([] : List Nat)) ∈
        [("a.txt".toList, ([72] : List Nat)), ("empty.bin".toList, [])] ∧
      (encodeBytes [] = [] ∧
        ("empty.bin".toList, ([] : List Nat)) ∈
          decodeStream (serialize
            [("a.txt".toList, ([72] : List Nat)), ("empty.bin".toList, [])])) :=
  ⟨by decide, by decide,
    claim9_empty_content_roundtrip _ _ (by decide) (by decide)⟩

/-- C10: on a digit string of `0`/`1` characters whose length is not a
multiple of 8, the decoder succeeds: it returns one byte per group,
`length / 8 + 1` bytes in total, each group read as a base-2 numeral; the
final group is the trailing `length % 8` characters and decodes to its base-2
value, which is below `2 ^ (length % 8)` — the short group is neither dropped
nor rejected. -/
theorem claim10_trailing_group_decoded (s : List Char)
    (hbin : ∀ c ∈ s, c = '0' ∨ c = '1') (hlen : s.length % 8 ≠ 0) :
    decodeDigits s = some ((chunks8 s).map bv) ∧
      ((chunks8 s).map bv).length = s.length / 8 + 1 ∧
      (chunks8 s).getLast? = some (s.drop (8 * (s.length / 8))) ∧
      (s.drop (8 * (s.length / 8))).length = s.length % 8 ∧
      bv (s.drop (8 * (s.length / 8))) < 2 ^ (s.length % 8) := by
  refine ⟨decodeDigits_bin hbin, ?_, chunks8_getLast s hlen, ?_, ?_⟩
  · rw [List.length_map, chunks8_length]
    omega
  · rw [List.length_drop]
    omega
  · have h1 := bv_lt (s.drop (8 * (s.length / 8)))
    rw [List.length_drop] at h1
    have h2 : s.length - 8 * (s.length / 8) = s.length % 8 := by omega
    rw [h2] at h1
    exact h1

theorem claim10_trailing_group_decoded_witness :
    (∀ c ∈ ("0101100101".toList), c = '0' ∨ c = '1') ∧
      ("0101100101".toList).length % 8 ≠ 0 ∧
      (decodeDigits ("0101100101".toList) =
          some ((chunks8 ("0101100101".toList)).map bv) ∧
        ((chunks8 ("0101100101".toList)).map bv).length =
          ("0101100101".toList).length / 8 + 1 ∧
        (chunks8 ("0101100101".toList)).getLast? =
          some (("0101100101".toList).drop
            (8 * (("0101100101".toList).length / 8))) ∧
        (("0101100101".toList).drop
            (8 * (("0101100101".toList).length / 8))).length =
          ("0101100101".toList).length % 8 ∧
        bv (("0101100101".toList).drop
            (8 * (("0101100101".toList).length / 8))) <
          2 ^ (("0101100101".toList).length % 8)) :=
  ⟨by decide, by decide,
    claim10_trailing_group_decoded ("0101100101".toList) (by decide) (by decide)⟩

end GithubToBinary
